import Mathlib

/-!
# Verification of the mini_parsers XML/JSON conversion core

Shallow embedding of `src/main.rs` (crate `mini_parsers`): the XML
recursive-descent parser (`XmlParser`), the XML-node→JSON-value mapper
(`XmlNode::to_json`), the JSON recursive-descent parser (`JsonParser`) and
the JSON-value→XML serializer (`JsonValue::to_xml`).

Modelling conventions:
* The Rust cursor is a `Vec<char>` plus a monotonically increasing
  `position`; all reads are of the suffix starting at `position`, so the
  cursor state is embedded as the remaining suffix (`List Char`).  An
  out-of-range `position` (Rust `next_char` past the end still increments)
  is observationally the empty suffix.
* Rust loops and the mutually recursive descent carry an explicit fuel;
  `none` marks fuel exhaustion, so genuine non-termination of the source
  is expressed as `∀ fuel, … = none`.  Loops whose progress is easy to
  exhibit are defined by well-founded recursion instead.
* `HashMap` is embedded as an association list with insert-replaces-value
  semantics (`hmInsert`); `serde_json::Map` (a `BTreeMap` under serde's
  default features) as a key-sorted association list (`sInsert`).
* `f64` values are abstracted by their source literal: the parser's
  grammar fixes exactly which literals reach `str::parse::<f64>`, and the
  only observable used by any claim is parse success/failure, which is
  decided by the literal's shape (a mantissa digit must be present).
-/

/-! ## Embedded definitions -/

/-- Rust `char::is_whitespace`: the Unicode `White_Space` property. -/
def isRustWhitespace (c : Char) : Bool :=
  c = ' ' || c = '\t' || c = '\n' || c = Char.ofNat 0x0B || c = Char.ofNat 0x0C ||
  c = '\r' || c = Char.ofNat 0x85 || c = Char.ofNat 0xA0 || c = Char.ofNat 0x1680 ||
  (0x2000 ≤ c.toNat && c.toNat ≤ 0x200A) ||
  c = Char.ofNat 0x2028 || c = Char.ofNat 0x2029 || c = Char.ofNat 0x202F ||
  c = Char.ofNat 0x205F || c = Char.ofNat 0x3000

/-- Characters accepted in tag/attribute names by `parse_tag_name`:
Rust `c.is_alphanumeric() || c == '_' || c == '-'`, restricted to the
ASCII fragment of `is_alphanumeric` (no claim involves non-ASCII names). -/
def isNameChar (c : Char) : Bool :=
  c.isAlpha || c.isDigit || c = '_' || c = '-'

/-- `skip_whitespace` of both parsers: drop the maximal whitespace run. -/
def skipWs : List Char → List Char
  | [] => []
  | c :: rest => if isRustWhitespace c then skipWs rest else c :: rest

/-- `expect_char`: consume one character, requiring it to equal `c`. -/
def expectChar (c : Char) : List Char → Except String (List Char)
  | [] => .error s!"Expected '{c}', found end of input"
  | a :: rest => if a = c then .ok rest else .error s!"Expected '{c}', found '{a}'"

/-- Association-list embedding of `HashMap::insert`: replace the value of
an existing key in place, otherwise append the new binding. -/
def hmInsert {α : Type} : List (List Char × α) → List Char → α → List (List Char × α)
  | [], k, v => [(k, v)]
  | (k', v') :: rest, k, v =>
    if k' = k then (k, v) :: rest else (k', v') :: hmInsert rest k v

/-- Association-list lookup (`HashMap`/`Map` `get`). -/
def assocLookup {α : Type} : List (List Char × α) → List Char → Option α
  | [], _ => none
  | (k', v) :: rest, k => if k' = k then some v else assocLookup rest k

/-- `XmlNode`: tag, attributes (`HashMap<String,String>`), ordered
children, optional text. -/
structure XmlNode where
  tag : List Char
  attributes : List (List Char × List Char)
  children : List XmlNode
  text : Option (List Char)
deriving Repr

/-- The scan of `parse_tag_name`'s loop: the maximal run of name
characters and the rest. -/
def takeNameChars : List Char → List Char × List Char
  | [] => ([], [])
  | c :: rest =>
    if isNameChar c then
      let p := takeNameChars rest
      (c :: p.1, p.2)
    else ([], c :: rest)

/-- `XmlParser::parse_tag_name`: maximal name-character run, erroring when
it is empty. -/
def parseTagName (s : List Char) : Except String (List Char × List Char) :=
  match takeNameChars s with
  | ([], _) => .error "Expected tag name"
  | (n, r) => .ok (n, r)

/-- `XmlParser::parse_attribute_value`: consume up to the closing quote. -/
def parseAttrValue : List Char → Except String (List Char × List Char)
  | [] => .error "Unterminated attribute value"
  | c :: rest =>
    if c = '"' then .ok ([], rest)
    else
      match parseAttrValue rest with
      | .error e => .error e
      | .ok (v, r) => .ok (c :: v, r)

/-- `XmlParser::parse_text`: consume up to the next `<` (or end of
input); the Rust function returns `Ok` on every path. -/
def parseText : List Char → List Char × List Char
  | [] => ([], [])
  | c :: rest =>
    if c = '<' then ([], c :: rest)
    else
      let p := parseText rest
      (c :: p.1, p.2)

/-- The attribute loop of `XmlParser::parse_attributes`: skip whitespace,
stop on `>`/`/`, else `name '=' '"' value '"'`, inserting into the map.
The loop consumes at least one character per iteration, so any fuel
exceeding the suffix length is enough; `none` is fuel exhaustion. -/
def parseAttributesLoop :
    Nat → List (List Char × List Char) → List Char →
      Option (Except String (List (List Char × List Char) × List Char))
  | 0, _, _ => none
  | fuel + 1, acc, s =>
    let s1 := skipWs s
    if s1.head? = some '>' ∨ s1.head? = some '/' then some (.ok (acc, s1))
    else
      match parseTagName s1 with
      | .error e => some (.error e)
      | .ok (name, s2) =>
        match expectChar '=' (skipWs s2) with
        | .error e => some (.error e)
        | .ok s4 =>
          match expectChar '"' (skipWs s4) with
          | .error e => some (.error e)
          | .ok s6 =>
            match parseAttrValue s6 with
            | .error e => some (.error e)
            | .ok (v, s7) => parseAttributesLoop fuel (hmInsert acc name v) s7

mutual

/-- `XmlParser::parse`: skip whitespace, `<`, tag name, attributes, then
either a self-closing `/>` or `>` followed by the content loop.  `none`
is fuel exhaustion. -/
def xmlParse : Nat → List Char → Option (Except String (XmlNode × List Char))
  | 0, _ => none
  | fuel + 1, s =>
    let s1 := skipWs s
    match expectChar '<' s1 with
    | .error e => some (.error e)
    | .ok s2 =>
      match parseTagName s2 with
      | .error e => some (.error e)
      | .ok (tag, s3) =>
        match parseAttributesLoop fuel [] s3 with
        | none => none
        | some (.error e) => some (.error e)
        | some (.ok (attrs, s4)) =>
          let node : XmlNode := ⟨tag, attrs, [], none⟩
          let s5 := skipWs s4
          if s5.head? = some '/' then
            match expectChar '>' s5.tail with
            | .error e => some (.error e)
            | .ok s6 => some (.ok (node, s6))
          else
            match expectChar '>' s5 with
            | .error e => some (.error e)
            | .ok s6 => xmlContent fuel node s6

/-- The content loop of `XmlParser::parse` (lines 103–128): skip
whitespace, then either the matching close tag, a child element, or a
text run (stored only when its trim is non-empty). -/
def xmlContent : Nat → XmlNode → List Char → Option (Except String (XmlNode × List Char))
  | 0, _, _ => none
  | fuel + 1, node, s =>
    match skipWs s with
    | '<' :: '/' :: s2 =>
      match parseTagName s2 with
      | .error e => some (.error e)
      | .ok (closeTag, s3) =>
        if closeTag ≠ node.tag then
          some (.error ("Mismatched tags: " ++ node.tag.asString ++ " and " ++ closeTag.asString))
        else
          match expectChar '>' s3 with
          | .error e => some (.error e)
          | .ok s4 => some (.ok (node, s4))
    | '<' :: s2 =>
      match xmlParse fuel ('<' :: s2) with
      | none => none
      | some (.error e) => some (.error e)
      | some (.ok (child, s3)) =>
        xmlContent fuel { node with children := node.children ++ [child] } s3
    | s1 =>
      let p := parseText s1
      let node' := if p.1.all isRustWhitespace then node
                   else { node with text := some p.1 }
      xmlContent fuel node' p.2

end

/-- The public `XmlParser::parse` result: the parser object (and hence
the unconsumed suffix) is dropped by the caller. -/
def xmlParseTop (fuel : Nat) (s : List Char) : Option (Except String XmlNode) :=
  match xmlParse fuel s with
  | none => none
  | some (.error e) => some (.error e)
  | some (.ok (n, _)) => some (.ok n)

/-- `serde_json::Value`.  `num` keeps the number abstract (never built by
this program's mapper). -/
inductive SValue where
  | null : SValue
  | bool (b : Bool) : SValue
  | num (lit : List Char) : SValue
  | str (s : List Char) : SValue
  | arr (xs : List SValue) : SValue
  | obj (m : List (List Char × SValue)) : SValue
deriving Repr

/-- Strict key order of `serde_json::Map` (a `BTreeMap` over `String`
under serde's default features): lexicographic on the characters. -/
def keyLt : List Char → List Char → Bool
  | [], [] => false
  | [], _ :: _ => true
  | _ :: _, [] => false
  | a :: as_, b :: bs => if a < b then true else if b < a then false else keyLt as_ bs

/-- `BTreeMap::insert`: keep the list key-sorted, replacing the value of
an equal key. -/
def sInsert {α : Type} : List (List Char × α) → List Char → α → List (List Char × α)
  | [], k, v => [(k, v)]
  | (k', v') :: rest, k, v =>
    if keyLt k k' then (k, v) :: (k', v') :: rest
    else if k = k' then (k, v) :: rest
    else (k', v') :: sInsert rest k v

/-- `children_map.entry(tag).or_insert_with(Vec::new).push(value)`:
group values by key, document order kept inside a group, groups in
first-occurrence order. -/
def groupAdd {α : Type} : List (List Char × List α) → List Char → α → List (List Char × List α)
  | [], k, v => [(k, [v])]
  | (k', vs) :: rest, k, v =>
    if k' = k then (k', vs ++ [v]) :: rest else (k', vs) :: groupAdd rest k v

/-- The `"@attributes"` object: each attribute becomes a string member. -/
def attrsToSObj (attrs : List (List Char × List Char)) : SValue :=
  .obj (attrs.foldl (fun m p => sInsert m p.1 (.str p.2)) [])

/-- The object-building part of `XmlNode::to_json` (everything except the
bare-text early return), over the already-projected child pairs. -/
def mkObjFrom (attrs : List (List Char × List Char)) (text : Option (List Char))
    (childPairs : List (List Char × SValue)) : SValue :=
  let map1 : List (List Char × SValue) :=
    if attrs.isEmpty then [] else sInsert [] ("@attributes".data) (attrsToSObj attrs)
  let map2 :=
    match text with
    | some t => sInsert map1 ("#text".data) (.str t)
    | none => map1
  let cm := childPairs.foldl (fun m p => groupAdd m p.1 p.2) []
  let map3 := cm.foldl
    (fun m p =>
      sInsert m p.1 (match p.2 with
        | [v] => v
        | vs => .arr vs))
    map2
  if map3.isEmpty then .null else .obj map3

mutual

/-- `XmlNode::to_json`: a node with no attributes, no children and text
projects to the bare text string; otherwise to the built object (or
`Null` when that object would be empty). -/
def toJson : XmlNode → SValue
  | ⟨tag, attrs, children, text⟩ =>
    match text with
    | some t =>
      if children.isEmpty && attrs.isEmpty then .str t
      else mkObjFrom attrs (some t) (toJsonPairs children)
    | none => mkObjFrom attrs none (toJsonPairs children)

/-- The iteration over `self.children` in `to_json`: each child paired
with its tag and projection, in document order. -/
def toJsonPairs : List XmlNode → List (List Char × SValue)
  | [] => []
  | c :: rest => (c.tag, toJson c) :: toJsonPairs rest

end

/-- The crate's own `JsonValue`.  A `Number` holds the literal text the
parser fed to `str::parse::<f64>` (see the header note on `f64`). -/
inductive JsonValue where
  | null : JsonValue
  | boolean (b : Bool) : JsonValue
  | number (lit : List Char) : JsonValue
  | string (s : List Char) : JsonValue
  | array (xs : List JsonValue) : JsonValue
  | object (m : List (List Char × JsonValue)) : JsonValue
deriving Repr

/-- `self.input[self.position..].starts_with(pat)`. -/
def startsWithChars : List Char → List Char → Bool
  | [], _ => true
  | _ :: _, [] => false
  | p :: ps, c :: cs => p = c && startsWithChars ps cs

/-- `JsonParser::parse_null`. -/
def parseNull (s : List Char) : Except String (JsonValue × List Char) :=
  if startsWithChars ['n', 'u', 'l', 'l'] s then .ok (.null, s.drop 4)
  else .error "Expected null"

/-- `JsonParser::parse_boolean`. -/
def parseBoolean (s : List Char) : Except String (JsonValue × List Char) :=
  if startsWithChars ['t', 'r', 'u', 'e'] s then .ok (.boolean true, s.drop 4)
  else if startsWithChars ['f', 'a', 'l', 's', 'e'] s then .ok (.boolean false, s.drop 5)
  else .error "Expected true or false"

/-- The scan loop of `JsonParser::parse_string` (after the opening quote
was consumed).  A backslash at end of input is skipped without its own
error (`if let Some(next)` falls through), so the loop then exhausts the
input and reports an unterminated string. -/
def parseStringLoop (acc : List Char) : List Char → Except String (JsonValue × List Char)
  | [] => .error "Unterminated string"
  | c :: rest =>
    if c = '"' then .ok (.string acc, rest)
    else if c = '\\' then
      match rest with
      | [] => .error "Unterminated string"
      | next :: rest2 =>
        if next = '"' ∨ next = '\\' ∨ next = '/' then parseStringLoop (acc ++ [next]) rest2
        else if next = 'b' then parseStringLoop (acc ++ [Char.ofNat 0x08]) rest2
        else if next = 'f' then parseStringLoop (acc ++ [Char.ofNat 0x0C]) rest2
        else if next = 'n' then parseStringLoop (acc ++ ['\n']) rest2
        else if next = 'r' then parseStringLoop (acc ++ ['\r']) rest2
        else if next = 't' then parseStringLoop (acc ++ ['\t']) rest2
        else .error "Invalid escape sequence"
    else parseStringLoop (acc ++ [c]) rest

/-- `JsonParser::parse_string`: skip the opening quote, then scan. -/
def parseString (s : List Char) : Except String (JsonValue × List Char) :=
  parseStringLoop [] s.tail

/-- A maximal ASCII-digit run (the `is_digit(10)` loops of
`parse_number`). -/
def takeDigits : List Char → List Char × List Char
  | [] => ([], [])
  | c :: rest =>
    if c.isDigit then
      let p := takeDigits rest
      (c :: p.1, p.2)
    else ([], c :: rest)

/-- `JsonParser::parse_number`: optional sign, digit run, optional
fraction (digit required), optional exponent (digit required), then
`str::parse::<f64>` — which fails exactly when the mantissa holds no
digit (literal `-` alone, or sign directly followed by the exponent). -/
def parseNumber (s : List Char) : Except String (JsonValue × List Char) :=
  let sign : List Char := if s.head? = some '-' then ['-'] else []
  let s1 := if s.head? = some '-' then s.tail else s
  let intPart := takeDigits s1
  let afterFrac :
      Except String (List Char × List Char) :=
    if intPart.2.head? = some '.' then
      let fracPart := takeDigits intPart.2.tail
      if fracPart.1.isEmpty then .error "Expected digit after decimal point"
      else .ok (intPart.1 ++ '.' :: fracPart.1, fracPart.2)
    else .ok (intPart.1, intPart.2)
  match afterFrac with
  | .error e => .error e
  | .ok (mantissa, s2) =>
    let afterExp :
        Except String (List Char × List Char) :=
      match s2.head? with
      | some 'e' =>
        let s3 := if s2.tail.head? = some '+' ∨ s2.tail.head? = some '-'
                  then 'e' :: s2.tail.head?.toList else ['e']
        let expDigits := takeDigits (if s2.tail.head? = some '+' ∨ s2.tail.head? = some '-'
                                     then s2.tail.tail else s2.tail)
        if expDigits.1.isEmpty then .error "Expected digit after exponent"
        else .ok (s3 ++ expDigits.1, expDigits.2)
      | some 'E' =>
        let s3 := if s2.tail.head? = some '+' ∨ s2.tail.head? = some '-'
                  then 'E' :: s2.tail.head?.toList else ['E']
        let expDigits := takeDigits (if s2.tail.head? = some '+' ∨ s2.tail.head? = some '-'
                                     then s2.tail.tail else s2.tail)
        if expDigits.1.isEmpty then .error "Expected digit after exponent"
        else .ok (s3 ++ expDigits.1, expDigits.2)
      | _ => .ok ([], s2)
    match afterExp with
    | .error e => .error e
    | .ok (expPart, s4) =>
      if mantissa.isEmpty then .error "Invalid number"
      else .ok (.number (sign ++ mantissa ++ expPart), s4)

mutual

/-- `JsonParser::parse_value`: skip whitespace, dispatch on the lookahead
character.  `none` is fuel exhaustion. -/
def parseValue : Nat → List Char → Option (Except String (JsonValue × List Char))
  | 0, _ => none
  | fuel + 1, s =>
    let s1 := skipWs s
    match s1.head? with
    | some 'n' => some (parseNull s1)
    | some 't' => some (parseBoolean s1)
    | some 'f' => some (parseBoolean s1)
    | some '"' => some (parseString s1)
    | some '[' => parseArrayLoop fuel [] s1.tail
    | some '{' => parseObjectLoop fuel [] s1.tail
    | some c =>
      if c.isDigit || c = '-' then some (parseNumber s1)
      else some (.error s!"Unexpected character '{c}'")
    | none => some (.error "Unexpected end of input")

/-- The loop of `JsonParser::parse_array` (after the opening bracket):
skip whitespace, close on `]`, require a comma between elements, parse
the next value. -/
def parseArrayLoop : Nat → List JsonValue → List Char → Option (Except String (JsonValue × List Char))
  | 0, _, _ => none
  | fuel + 1, acc, s =>
    let s1 := skipWs s
    if s1.head? = some ']' then some (.ok (.array acc, s1.tail))
    else if acc.isEmpty then
      match parseValue fuel s1 with
      | none => none
      | some (.error e) => some (.error e)
      | some (.ok (v, s2)) => parseArrayLoop fuel (acc ++ [v]) s2
    else
      match s1.head? with
      | some ',' =>
        match parseValue fuel (skipWs s1.tail) with
        | none => none
        | some (.error e) => some (.error e)
        | some (.ok (v, s2)) => parseArrayLoop fuel (acc ++ [v]) s2
      | _ => some (.error "Expected comma")

/-- The loop of `JsonParser::parse_object` (after the opening brace):
skip whitespace, close on `}`, require a comma between members, parse a
value that must be a string key. -/
def parseObjectLoop : Nat → List (List Char × JsonValue) → List Char → Option (Except String (JsonValue × List Char))
  | 0, _, _ => none
  | fuel + 1, obj, s =>
    let s1 := skipWs s
    if s1.head? = some '}' then some (.ok (.object obj, s1.tail))
    else if obj.isEmpty then
      match parseValue fuel s1 with
      | none => none
      | some (.error e) => some (.error e)
      | some (.ok (.string key, s2)) => parseObjectRest fuel obj key s2
      | some (.ok (_, _)) => some (.error "Expected string as object key")
    else
      match s1.head? with
      | some ',' =>
        match parseValue fuel (skipWs s1.tail) with
        | none => none
        | some (.error e) => some (.error e)
        | some (.ok (.string key, s2)) => parseObjectRest fuel obj key s2
        | some (.ok (_, _)) => some (.error "Expected string as object key")
      | _ => some (.error "Expected comma")

/-- The member tail of `parse_object` (lines 464–469): after the key,
skip whitespace, require `:`, parse the member value, insert, loop. -/
def parseObjectRest : Nat → List (List Char × JsonValue) → List Char → List Char → Option (Except String (JsonValue × List Char))
  | 0, _, _, _ => none
  | fuel + 1, obj, key, s =>
    match skipWs s with
    | ':' :: s4 =>
      match parseValue fuel s4 with
      | none => none
      | some (.error e) => some (.error e)
      | some (.ok (v, s5)) => parseObjectLoop fuel (hmInsert obj key v) s5
    | _ => some (.error "Expected colon")

end

/-- `JsonParser::parse`: one value, then only whitespace may remain. -/
def jsonParse (fuel : Nat) (s : List Char) : Option (Except String JsonValue) :=
  match parseValue fuel s with
  | none => none
  | some (.error e) => some (.error e)
  | some (.ok (v, r)) =>
    if (skipWs r).isEmpty then some (.ok v)
    else some (.error "Unexpected characters after JSON value")

/-- `escape_xml_text`'s five sequential `str::replace` passes, one
character pattern at a time. -/
def replaceChar (c : Char) (rep : List Char) : List Char → List Char
  | [] => []
  | a :: rest => (if a = c then rep else [a]) ++ replaceChar c rep rest

/-- `escape_xml_text`: `&`, `<`, `>`, `"`, `'` in that order. -/
def escapeXmlText (s : List Char) : List Char :=
  replaceChar '\'' ("&apos;".data)
    (replaceChar '"' ("&quot;".data)
      (replaceChar '>' ("&gt;".data)
        (replaceChar '<' ("&lt;".data)
          (replaceChar '&' ("&amp;".data) s))))

mutual

/-- `JsonValue::to_xml_with_tag`.  `Null` yields the bare opening tag.
The `Display` output of a `Number`'s `f64` is abstracted by its source
literal (no claim depends on float formatting). -/
def toXmlWithTag : JsonValue → List Char → List Char
  | .null, tag => '<' :: (tag ++ ['>'])
  | .boolean b, tag =>
    '<' :: (tag ++ ['>']) ++ (if b then "true".data else "false".data) ++ ('<' :: '/' :: (tag ++ ['>']))
  | .number lit, tag => '<' :: (tag ++ ['>']) ++ lit ++ ('<' :: '/' :: (tag ++ ['>']))
  | .string s, tag => '<' :: (tag ++ ['>']) ++ escapeXmlText s ++ ('<' :: '/' :: (tag ++ ['>']))
  | .array xs, tag =>
    '<' :: (tag ++ ['>']) ++ toXmlItems xs ++ ('<' :: '/' :: (tag ++ ['>']))
  | .object m, tag =>
    '<' :: (tag ++ ['>']) ++ toXmlMembers m ++ ('<' :: '/' :: (tag ++ ['>']))

/-- The array iteration of `to_xml_with_tag`: two literal spaces, then
the element under the fixed tag `item`. -/
def toXmlItems : List JsonValue → List Char
  | [] => []
  | v :: rest => ' ' :: ' ' :: toXmlWithTag v ("item".data) ++ toXmlItems rest

/-- The object iteration of `to_xml_with_tag`: two literal spaces, then
the member under its key as tag (map iteration order = list order). -/
def toXmlMembers : List (List Char × JsonValue) → List Char
  | [] => []
  | (k, v) :: rest => ' ' :: ' ' :: toXmlWithTag v k ++ toXmlMembers rest

end

/-- `JsonValue::to_xml`. -/
def toXml (v : JsonValue) : List Char :=
  toXmlWithTag v ("root".data)

mutual

/-- The part of C2's invariant the code actually maintains: every stored
text run starts with a non-whitespace character (the loop skips
whitespace before `parse_text`), hence is non-empty and trims to
something non-empty.  Trailing whitespace is NOT excluded: the run is
stored untrimmed. -/
def textOk : XmlNode → Bool
  | ⟨_, _, children, text⟩ =>
    (match text with
     | none => true
     | some t =>
       match t.head? with
       | some c => !isRustWhitespace c
       | none => false) && textOkList children

def textOkList : List XmlNode → Bool
  | [] => true
  | c :: rest => textOk c && textOkList rest

end

/-! ## Lemmas, claims, counterexamples and witnesses -/

theorem takeNameChars_cons_pos {c : Char} {rest : List Char} (h : isNameChar c = true) :
    takeNameChars (c :: rest) = (c :: (takeNameChars rest).1, (takeNameChars rest).2) := by
  simp only [takeNameChars, h, if_true]

theorem takeNameChars_cons_neg {c : Char} {rest : List Char} (h : ¬ isNameChar c = true) :
    takeNameChars (c :: rest) = ([], c :: rest) := by
  simp [takeNameChars, h]

theorem takeNameChars_snd_length (s : List Char) :
    (takeNameChars s).2.length + (takeNameChars s).1.length = s.length := by
  induction s with
  | nil => simp [takeNameChars]
  | cons c rest ih =>
    by_cases hc : isNameChar c = true
    · rw [takeNameChars_cons_pos hc]
      simp only [List.length_cons]
      omega
    · rw [takeNameChars_cons_neg hc]
      simp

theorem parseTagName_length {s n r} (h : parseTagName s = .ok (n, r)) :
    r.length < s.length := by
  unfold parseTagName at h
  rcases hn : takeNameChars s with ⟨n', r'⟩
  rw [hn] at h
  cases n' with
  | nil => cases h
  | cons c n'' =>
    cases h
    have := takeNameChars_snd_length s
    rw [hn] at this
    simp only [List.length_cons] at this
    omega

theorem skipWs_length_le (s : List Char) : (skipWs s).length ≤ s.length := by
  induction s with
  | nil => simp [skipWs]
  | cons c rest ih =>
    simp only [skipWs]
    split
    · simp only [List.length_cons]
      omega
    · simp

theorem expectChar_length {c s r} (h : expectChar c s = .ok r) :
    r.length < s.length := by
  match s with
  | [] => simp [expectChar] at h
  | a :: rest =>
    simp only [expectChar] at h
    split at h
    · cases h; simp
    · cases h

theorem parseAttrValue_length {s v r} (h : parseAttrValue s = .ok (v, r)) :
    r.length < s.length := by
  induction s generalizing v with
  | nil => simp [parseAttrValue] at h
  | cons c rest ih =>
    simp only [parseAttrValue] at h
    split at h
    · cases h; simp
    · match hv : parseAttrValue rest with
      | .error e => rw [hv] at h; cases h
      | .ok (v', r') =>
        rw [hv] at h
        cases h
        have := ih hv
        simp
        omega

theorem skipWs_cons_of_not_ws {c : Char} {s : List Char} (h : isRustWhitespace c = false) :
    skipWs (c :: s) = c :: s := by
  simp [skipWs, h]

theorem skipWs_head_not_ws {s r : List Char} {c : Char} (h : skipWs s = c :: r) :
    isRustWhitespace c = false := by
  induction s with
  | nil => simp [skipWs] at h
  | cons a rest ih =>
    simp only [skipWs] at h
    split at h
    · exact ih h
    · cases h
      rename_i hna
      simpa using hna

theorem skipWs_wsrun_append {w : List Char} (s : List Char)
    (hw : ∀ c ∈ w, isRustWhitespace c = true) :
    skipWs (w ++ s) = skipWs s := by
  induction w with
  | nil => rfl
  | cons c rest ih =>
    have hc : isRustWhitespace c = true := hw c (by simp)
    simp only [List.cons_append, skipWs, hc, if_true]
    exact ih (fun c hm => hw c (by simp [hm]))

/-- The content loop makes no progress once the input is exhausted:
`skip_whitespace` is a no-op, the lookahead is not `<`, `parse_text`
returns an empty run that is discarded, and the loop repeats. -/
theorem xmlContent_nil_none (fuel : Nat) (node : XmlNode) :
    xmlContent fuel node [] = none := by
  induction fuel with
  | zero => rfl
  | succ n ih => simpa [xmlContent, skipWs, parseText] using ih

/-- C1: the claim says both parsers terminate on every input, an
unterminated input reaching an explicit error.  The code refutes this:
on `"<a>"` (well-formed open tag, missing close tag) the XML content
loop reaches end of input and spins forever — for every fuel the model
returns the out-of-fuel marker, i.e. `XmlParser::parse` never returns. -/
theorem c1_xml_parse_diverges_on_unterminated_input :
    ∀ fuel : Nat, xmlParse fuel ("<a>".data) = none := by
  intro fuel
  match fuel with
  | 0 => rfl
  | 1 => rfl
  | n + 2 =>
    show xmlParse (n + 2) ['<', 'a', '>'] = none
    have h : xmlParse (n + 2) ['<', 'a', '>'] = xmlContent n ⟨['a'], [], [], none⟩ [] := by
      rfl
    rw [h, xmlContent_nil_none]

/-- C5: `Null` serializes as exactly the bare opening tag, with no
closing tag and no self-closing slash; at top level, parsing `"null"`
and serializing yields exactly `"<root>"`. -/
theorem c5_null_serializes_as_bare_open_tag :
    (∀ tag : List Char, toXmlWithTag .null tag = '<' :: (tag ++ ['>'])) ∧
    jsonParse 20 ("null".data) = some (.ok .null) ∧
    toXml .null = "<root>".data := by
  refine ⟨fun tag => rfl, rfl, rfl⟩

/-- C6: a node with no attributes, no children and text present projects
to that text as a bare JSON string; `"<a>hello</a>"` parses to such a
node and projects to the string `"hello"`. -/
theorem c6_bare_text_projects_to_string :
    (∀ (tag t : List Char), toJson ⟨tag, [], [], some t⟩ = .str t) ∧
    xmlParse 20 ("<a>hello</a>".data) =
      some (.ok (⟨"a".data, [], [], some ("hello".data)⟩, [])) ∧
    toJson ⟨"a".data, [], [], some ("hello".data)⟩ = .str ("hello".data) := by
  refine ⟨fun tag t => rfl, rfl, rfl⟩

/-- C10: a backslash as the final input character is skipped without an
escape error (`if let Some(next)` falls through) and the loop then
exhausts the input: the parse fails with `"Unterminated string"`, both
for the scan loop from any accumulated state and for a whole parse. -/
theorem c10_trailing_backslash_reports_unterminated :
    (∀ acc : List Char, parseStringLoop acc ['\\'] = .error "Unterminated string") ∧
    jsonParse 20 ("\"ab\\".data) = some (.error "Unterminated string") := by
  exact ⟨fun acc => rfl, rfl⟩

/-- C7: exactly the eight escapes `\"` `\\` `\/` `\b` `\f` `\n` `\r` `\t`
are accepted, decoding to quote, backslash, slash, backspace, form feed,
newline, carriage return and tab; any other escaped character fails with
`"Invalid escape sequence"` (shown end to end on `"a\q"`). -/
theorem c7_string_escape_sequences :
    (∀ acc s, parseStringLoop acc ('\\' :: '"' :: s) = parseStringLoop (acc ++ ['"']) s) ∧
    (∀ acc s, parseStringLoop acc ('\\' :: '\\' :: s) = parseStringLoop (acc ++ ['\\']) s) ∧
    (∀ acc s, parseStringLoop acc ('\\' :: '/' :: s) = parseStringLoop (acc ++ ['/']) s) ∧
    (∀ acc s, parseStringLoop acc ('\\' :: 'b' :: s) = parseStringLoop (acc ++ [Char.ofNat 0x08]) s) ∧
    (∀ acc s, parseStringLoop acc ('\\' :: 'f' :: s) = parseStringLoop (acc ++ [Char.ofNat 0x0C]) s) ∧
    (∀ acc s, parseStringLoop acc ('\\' :: 'n' :: s) = parseStringLoop (acc ++ ['\n']) s) ∧
    (∀ acc s, parseStringLoop acc ('\\' :: 'r' :: s) = parseStringLoop (acc ++ ['\r']) s) ∧
    (∀ acc s, parseStringLoop acc ('\\' :: 't' :: s) = parseStringLoop (acc ++ ['\t']) s) ∧
    (∀ (acc s : List Char) (c : Char),
      c ∉ ['"', '\\', '/', 'b', 'f', 'n', 'r', 't'] →
      parseStringLoop acc ('\\' :: c :: s) = .error "Invalid escape sequence") ∧
    jsonParse 20 ("\"a\\q\"".data) = some (.error "Invalid escape sequence") := by
  refine ⟨fun acc s => rfl, fun acc s => rfl, fun acc s => rfl, fun acc s => rfl,
    fun acc s => rfl, fun acc s => rfl, fun acc s => rfl, fun acc s => rfl,
    ?_, rfl⟩
  intro acc s c hc
  simp only [List.mem_cons, List.not_mem_nil, or_false, not_or] at hc
  obtain ⟨h1, h2, h3, h4, h5, h6, h7, h8⟩ := hc
  simp [parseStringLoop, h1, h2, h3, h4, h5, h6, h7, h8]

/-- Witness for C7's hypothesis-bearing conjunct: the escape `\q` is
rejected. -/
theorem c7_string_escape_sequences_witness :
    parseStringLoop [] ('\\' :: 'q' :: []) = .error "Invalid escape sequence" :=
  (c7_string_escape_sequences.2.2.2.2.2.2.2.2.1) [] [] 'q' (by decide)

theorem textOkList_append (l : List XmlNode) (c : XmlNode) :
    textOkList (l ++ [c]) = (textOkList l && textOk c) := by
  induction l with
  | nil => simp [textOkList]
  | cons a rest ih =>
    simp only [List.cons_append, textOkList]
    rw [show rest.append [c] = rest ++ [c] from rfl, ih, Bool.and_assoc]

/-- Combined fuel induction behind C2: the parser and its content loop
preserve `textOk`. -/
theorem textOk_of_parse_aux :
    ∀ fuel : Nat,
      (∀ s n r, xmlParse fuel s = some (.ok (n, r)) → textOk n = true) ∧
      (∀ node s n r, textOk node = true →
        xmlContent fuel node s = some (.ok (n, r)) → textOk n = true) := by
  intro fuel
  induction fuel with
  | zero =>
    constructor
    · intro s n r h; simp [xmlParse] at h
    · intro node s n r _ h; simp [xmlContent] at h
  | succ f ih =>
    obtain ⟨ihP, ihC⟩ := ih
    constructor
    · intro s n r h
      simp only [xmlParse] at h
      split at h
      · simp at h
      · split at h
        · simp at h
        · split at h
          · simp at h
          · simp at h
          · rename_i tag s3 _ attrs s4 
            split at h
            · split at h
              · simp at h
              · rename_i s6
                simp only [Option.some.injEq, Except.ok.injEq, Prod.mk.injEq] at h
                obtain ⟨h1, _⟩ := h
                subst h1
                simp [textOk, textOkList]
            · split at h
              · simp at h
              · exact ihC _ _ _ _ (by simp [textOk, textOkList]) h
    · intro node s n r hnode h
      simp only [xmlContent] at h
      split at h
      · -- close-tag branch
        split at h
        · simp at h
        · split at h
          · simp at h
          · split at h
            · simp at h
            · simp only [Option.some.injEq, Except.ok.injEq, Prod.mk.injEq] at h
              obtain ⟨h1, _⟩ := h
              subst h1
              exact hnode
      · -- child branch
        split at h
        · simp at h
        · simp at h
        · rename_i child s3 hchild
          have hc := ihP _ _ _ hchild
          rcases node with ⟨tag, attrs, children, text⟩
          refine ihC _ _ _ _ ?_ h
          simp only [textOk] at hnode ⊢
          simp only [textOkList_append]
          simp only [Bool.and_eq_true] at hnode ⊢
          exact ⟨hnode.1, hnode.2, hc⟩
      · -- text branch
        rename_i hne1 hne2
        rcases hs : skipWs s with _ | ⟨c, s2⟩
        · rw [hs] at h
          simp only [parseText, List.all_nil, if_true] at h
          rw [xmlContent_nil_none] at h
          cases h
        · rw [hs] at h
          have hcws : isRustWhitespace c = false := skipWs_head_not_ws hs
          have hclt : ¬ c = '<' := fun hc => hne2 s2 (by rw [hs, hc])
          rw [show parseText (c :: s2) = (c :: (parseText s2).1, (parseText s2).2) from by
            simp [parseText, hclt]] at h
          rw [if_neg (by simp [List.all_cons, hcws])] at h
          rcases node with ⟨tag, attrs, children, text⟩
          refine ihC _ _ _ _ ?_ h
          simp only [textOk, Bool.and_eq_true] at hnode ⊢
          refine ⟨?_, hnode.2⟩
          simp [hcws]

/-- C2 counterexample: the claim says a stored `text` is trimmed (no
trailing whitespace), but parsing `"<a>hi </a>"` stores the run
`"hi "` with its trailing space — `trim` is only used for the emptiness
test, the raw run is stored. -/
theorem c2_text_not_trimmed_counterexample :
    xmlParse 20 ("<a>hi </a>".data) =
      some (.ok (⟨"a".data, [], [], some ['h', 'i', ' ']⟩, [])) ∧
    ['h', 'i', ' '].getLast? = some ' ' ∧
    isRustWhitespace ' ' = true := by
  exact ⟨rfl, rfl, by decide⟩

/-- C2 amended: every node of a successful parse satisfies `textOk`: a
stored text run begins with a non-whitespace character (hence is
non-empty and trims to non-empty, and whitespace-only runs are never
stored), but it is stored untrimmed, so trailing whitespace may remain. -/
theorem c2_text_run_invariant (fuel : Nat) (s : List Char) (n : XmlNode) (r : List Char)
    (h : xmlParse fuel s = some (.ok (n, r))) : textOk n = true :=
  (textOk_of_parse_aux fuel).1 s n r h

/-- Witness: C2's amended invariant applied to the counterexample input. -/
theorem c2_text_run_invariant_witness :
    textOk ⟨"a".data, [], [], some ['h', 'i', ' ']⟩ = true :=
  c2_text_run_invariant 20 ("<a>hi </a>".data) ⟨"a".data, [], [], some ['h', 'i', ' ']⟩ [] rfl

/-- C3 counterexample: whitespace insertion is NOT always
result-preserving.  XML: a space inserted between the text run and the
closing tag of `"<a>hi</a>"` is absorbed into the stored text, giving a
different tree.  JSON: a space inserted after the comma character inside
the string of `["a,b"]` changes the parsed value. -/
theorem c3_ws_insertion_counterexample :
    xmlParse 20 ("<a>hi</a>".data) =
      some (.ok (⟨"a".data, [], [], some ("hi".data)⟩, [])) ∧
    xmlParse 20 ("<a>hi </a>".data) =
      some (.ok (⟨"a".data, [], [], some ['h', 'i', ' ']⟩, [])) ∧
    (⟨"a".data, [], [], some ("hi".data)⟩ : XmlNode) ≠ ⟨"a".data, [], [], some ['h', 'i', ' ']⟩ ∧
    parseValue 20 ("[\"a,b\"]".data) = some (.ok (.array [.string ("a,b".data)], [])) ∧
    parseValue 20 ("[\"a, b\"]".data) = some (.ok (.array [.string ("a, b".data)], [])) ∧
    JsonValue.array [.string ("a,b".data)] ≠ .array [.string ("a, b".data)] := by
  refine ⟨rfl, rfl, ?_, rfl, rfl, by simp⟩
  intro h
  injection h with h1 h2 h3 h4
  exact absurd h4 (by decide)

/-- C3 amended: a whitespace run prepended at any of the parsers'
whitespace-skip points is invisible: before a JSON value, at the top of
the array and object member loops (hence before `]`, `}` and separating
commas), before an object colon, at the `skip_whitespace` preceding the
top-level end-of-input check, and at the start of an XML parse or of any
XML content item.  (Whitespace adjacent to a text run or inside a string
is NOT such a point — see the counterexample.) -/
theorem c3_ws_skip_point_invariance (w s : List Char)
    (hw : ∀ c ∈ w, isRustWhitespace c = true) :
    (∀ fuel, parseValue fuel (w ++ s) = parseValue fuel s) ∧
    (∀ fuel acc, parseArrayLoop fuel acc (w ++ s) = parseArrayLoop fuel acc s) ∧
    (∀ fuel obj, parseObjectLoop fuel obj (w ++ s) = parseObjectLoop fuel obj s) ∧
    (∀ fuel obj key, parseObjectRest fuel obj key (w ++ s) = parseObjectRest fuel obj key s) ∧
    skipWs (w ++ s) = skipWs s ∧
    (∀ fuel, xmlParse fuel (w ++ s) = xmlParse fuel s) ∧
    (∀ fuel node, xmlContent fuel node (w ++ s) = xmlContent fuel node s) := by
  have hskip : skipWs (w ++ s) = skipWs s := skipWs_wsrun_append s hw
  refine ⟨?_, ?_, ?_, ?_, hskip, ?_, ?_⟩
  · intro fuel
    match fuel with
    | 0 => rfl
    | fuel + 1 => simp only [parseValue, hskip]
  · intro fuel acc
    match fuel with
    | 0 => rfl
    | fuel + 1 => simp only [parseArrayLoop, hskip]
  · intro fuel obj
    match fuel with
    | 0 => rfl
    | fuel + 1 => simp only [parseObjectLoop, hskip]
  · intro fuel obj key
    match fuel with
    | 0 => rfl
    | fuel + 1 => simp only [parseObjectRest, hskip]
  · intro fuel
    match fuel with
    | 0 => rfl
    | fuel + 1 => simp only [xmlParse, hskip]
  · intro fuel node
    match fuel with
    | 0 => rfl
    | fuel + 1 => simp only [xmlContent, hskip]

/-- Witness for C3's amended invariance at a concrete skip point. -/
theorem c3_ws_skip_point_invariance_witness :
    parseValue 5 (" 1".data) = parseValue 5 ("1".data) :=
  (c3_ws_skip_point_invariance [' '] ("1".data) (by decide)).1 5

/-- Name characters are never Unicode whitespace. -/
theorem not_ws_of_nameChar {c : Char} (h : isNameChar c = true) :
    isRustWhitespace c = false := by
  have hn : 45 = c.toNat ∨ 95 = c.toNat ∨ (48 ≤ c.toNat ∧ c.toNat ≤ 57) ∨
      (65 ≤ c.toNat ∧ c.toNat ≤ 90) ∨ (97 ≤ c.toNat ∧ c.toNat ≤ 122) := by
    simp only [isNameChar, Char.isAlpha, Char.isUpper, Char.isLower, Char.isDigit,
      Bool.or_eq_true, Bool.and_eq_true, decide_eq_true_eq, ge_iff_le] at h
    rcases h with (((⟨a, b⟩ | ⟨a, b⟩) | ⟨a, b⟩) | rfl) | rfl
    · exact .inr (.inr (.inr (.inl ⟨a, b⟩)))
    · exact .inr (.inr (.inr (.inr ⟨a, b⟩)))
    · exact .inr (.inr (.inl ⟨a, b⟩))
    · exact .inr (.inl (by decide))
    · exact .inl (by decide)
  by_contra hww
  rw [Bool.not_eq_false] at hww
  simp only [isRustWhitespace, Bool.or_eq_true, Bool.and_eq_true, decide_eq_true_eq] at hww
  rcases hww with ((((((((((((((rfl) | rfl) | rfl) | rfl) | rfl) | rfl) | rfl) | rfl) | rfl) | hr) | rfl) | rfl) | rfl) | rfl) | rfl
  all_goals first
    | omega
    | exact absurd hn (by decide)

theorem takeNameChars_name_append {name : List Char}
    (hname : ∀ ch ∈ name, isNameChar ch = true) {x : Char} (hx : isNameChar x = false)
    (r : List Char) :
    takeNameChars (name ++ x :: r) = (name, x :: r) := by
  induction name with
  | nil => exact takeNameChars_cons_neg (by simp [hx])
  | cons c rest ih =>
    rw [List.cons_append, takeNameChars_cons_pos (hname c (by simp)),
      ih (fun ch hm => hname ch (by simp [hm]))]

theorem parseTagName_name_append (name : List Char) (hne : name ≠ [])
    (hname : ∀ ch ∈ name, isNameChar ch = true) (x : Char) (hx : isNameChar x = false)
    (r : List Char) :
    parseTagName (name ++ x :: r) = .ok (name, x :: r) := by
  unfold parseTagName
  rw [takeNameChars_name_append hname hx r]
  cases name with
  | nil => exact absurd rfl hne
  | cons c rest => rfl

theorem parseAttrValue_append {v : List Char} (hv : ∀ ch ∈ v, ch ≠ '"') (r : List Char) :
    parseAttrValue (v ++ '"' :: r) = .ok (v, r) := by
  induction v with
  | nil => simp [parseAttrValue]
  | cons c rest ih =>
    have hc : ¬ c = '"' := hv c (by simp)
    simp only [List.cons_append, parseAttrValue, if_neg hc]
    rw [show rest.append ('"' :: r) = rest ++ '"' :: r from rfl,
      ih (fun ch hm => hv ch (by simp [hm]))]

theorem parseAttributesLoop_encoded (attrs : List (List Char × List Char)) :
    ∀ (fuel : Nat) (acc : List (List Char × List Char)) (c : Char) (rest : List Char),
    (∀ p ∈ attrs, p.1 ≠ [] ∧ (∀ ch ∈ p.1, isNameChar ch = true) ∧ (∀ ch ∈ p.2, ch ≠ '"')) →
    (c = '>' ∨ c = '/') → attrs.length + 1 ≤ fuel →
    parseAttributesLoop fuel acc
        ((attrs.map (fun p => p.1 ++ '=' :: '"' :: (p.2 ++ ['"']))).flatten ++ c :: rest) =
      some (.ok (attrs.foldl (fun m p => hmInsert m p.1 p.2) acc, c :: rest)) := by
  induction attrs with
  | nil =>
    intro fuel acc c rest _ hc hfuel
    match fuel, hfuel with
    | fuel + 1, _ =>
      have hcw : isRustWhitespace c = false := by
        rcases hc with rfl | rfl <;> decide
      have hhead : (c :: rest).head? = some '>' ∨ (c :: rest).head? = some '/' := by
        rcases hc with rfl | rfl
        · exact Or.inl rfl
        · exact Or.inr rfl
      simp only [List.map_nil, List.flatten_nil, List.nil_append, List.foldl_nil,
        parseAttributesLoop, skipWs_cons_of_not_ws hcw]
      rw [if_pos hhead]
  | cons p ps ih =>
    intro fuel acc c rest hattrs hc hfuel
    obtain ⟨n, v⟩ := p
    obtain ⟨hne, hname, hval⟩ := hattrs (n, v) (by simp)
    match fuel, hfuel with
    | fuel + 1, hfuel =>
      cases n with
      | nil => exact absurd rfl hne
      | cons n0 n' =>
        have hn0 : isNameChar n0 = true := hname n0 (by simp)
        have hn0w : isRustWhitespace n0 = false := not_ws_of_nameChar hn0
        have hnotstop : ∀ T : List Char,
            ¬((n0 :: T).head? = some '>' ∨ (n0 :: T).head? = some '/') := by
          intro T h
          rcases h with h | h <;>
            (simp only [List.head?_cons, Option.some.injEq] at h; subst h;
             exact absurd hn0 (by decide))
        have htag : parseTagName (n0 :: (n' ++ '=' :: '"' ::
              (v ++ '"' :: ((ps.map (fun p => p.1 ++ '=' :: '"' :: (p.2 ++ ['"']))).flatten ++ c :: rest)))) =
            .ok (n0 :: n', '=' :: '"' ::
              (v ++ '"' :: ((ps.map (fun p => p.1 ++ '=' :: '"' :: (p.2 ++ ['"']))).flatten ++ c :: rest))) := by
          have h := parseTagName_name_append (n0 :: n') (by simp) hname '=' (by decide)
            ('"' :: (v ++ '"' :: ((ps.map (fun p => p.1 ++ '=' :: '"' :: (p.2 ++ ['"']))).flatten ++ c :: rest)))
          simpa using h
        have hval' := parseAttrValue_append hval
          ((ps.map (fun p => p.1 ++ '=' :: '"' :: (p.2 ++ ['"']))).flatten ++ c :: rest)
        simp only [List.map_cons, List.flatten_cons, List.cons_append, List.nil_append,
          List.append_assoc]
        simp only [parseAttributesLoop, skipWs_cons_of_not_ws hn0w]
        rw [if_neg (hnotstop _)]
        rw [htag]
        simp only [show ∀ T : List Char, expectChar '=' ('=' :: T) = Except.ok T from fun _ => rfl,
          show ∀ T : List Char, expectChar '"' ('"' :: T) = Except.ok T from fun _ => rfl,
          skipWs_cons_of_not_ws (show isRustWhitespace '=' = false by decide),
          skipWs_cons_of_not_ws (show isRustWhitespace '"' = false by decide),
          hval', List.foldl_cons]
        exact ih fuel (hmInsert acc (n0 :: n') v) c rest
          (fun p hp => hattrs p (by simp [hp])) hc
          (by simp only [List.length_cons] at hfuel; omega)

theorem assocLookup_hmInsert_self {α : Type} (m : List (List Char × α)) (k : List Char) (v : α) :
    assocLookup (hmInsert m k v) k = some v := by
  induction m with
  | nil => simp [hmInsert, assocLookup]
  | cons p rest ih =>
    obtain ⟨k', v'⟩ := p
    by_cases hk : k' = k
    · simp [hmInsert, hk, assocLookup]
    · simp [hmInsert, hk, assocLookup, ih]

theorem assocLookup_hmInsert_ne {α : Type} (m : List (List Char × α)) (k k2 : List Char) (v : α)
    (h : k2 ≠ k) :
    assocLookup (hmInsert m k v) k2 = assocLookup m k2 := by
  induction m with
  | nil =>
    simp only [hmInsert, assocLookup]
    rw [if_neg (fun hh => h (Eq.symm hh))]
  | cons p rest ih =>
    obtain ⟨k', v'⟩ := p
    by_cases hk : k' = k
    · subst hk
      simp only [hmInsert, if_pos rfl, assocLookup]
      rw [if_neg (fun hh => h (Eq.symm hh)), if_neg (fun hh => h (Eq.symm hh))]
    · simp only [hmInsert, if_neg hk, assocLookup]
      split
      · rfl
      · exact ih

theorem hmFold_lookup_last (attrs : List (List Char × List Char))
    (m : List (List Char × List Char)) (k : List Char) :
    assocLookup (attrs.foldl (fun m p => hmInsert m p.1 p.2) m) k =
      match (attrs.filter (fun p => p.1 = k)).getLast? with
      | some p => some p.2
      | none => assocLookup m k := by
  induction attrs generalizing m with
  | nil => simp
  | cons p rest ih =>
    obtain ⟨n, v⟩ := p
    simp only [List.foldl_cons]
    rw [ih]
    by_cases hk : n = k
    · subst hk
      simp only [List.filter_cons]
      rw [if_pos (by simp)]
      rcases hfr : (rest.filter (fun p => p.1 = n)).getLast? with _ | p2
      · have hnil : rest.filter (fun p => p.1 = n) = [] := by
          cases hl : rest.filter (fun p => p.1 = n) with
          | nil => rfl
          | cons a l =>
            rw [hl] at hfr
            exact absurd hfr (by simp [List.getLast?_cons_cons])
        rw [hnil]
        simp only [List.getLast?_singleton]
        exact assocLookup_hmInsert_self m n v
      · cases hl : rest.filter (fun p => p.1 = n) with
        | nil =>
          rw [hl] at hfr
          cases hfr
        | cons a l =>
          rw [hl] at hfr
          rw [List.getLast?_cons_cons, hfr]
    · have hd : (decide (n = k)) = false := by simp [hk]
      simp only [List.filter_cons, hd, Bool.false_eq_true, if_false]
      cases hfr2 : (rest.filter (fun p => p.1 = k)).getLast? with
      | none => exact assocLookup_hmInsert_ne m n k v (fun h => hk (Eq.symm h))
      | some p2 => rfl

/-- C9: a repeated attribute name raises no error and the last
occurrence wins: `parse_attributes` on any encoded attribute token
sequence returns the fold of `HashMap::insert` over the tokens, whose
lookup is the value of each name's final occurrence; evaluated end to
end on `<a x="1" x="2"/>`. -/
theorem c9_duplicate_attributes_last_wins :
    (∀ (attrs acc : List (List Char × List Char)) (c : Char) (rest : List Char) (fuel : Nat),
      (∀ p ∈ attrs, p.1 ≠ [] ∧ (∀ ch ∈ p.1, isNameChar ch = true) ∧ (∀ ch ∈ p.2, ch ≠ '"')) →
      (c = '>' ∨ c = '/') → attrs.length + 1 ≤ fuel →
      parseAttributesLoop fuel acc
          ((attrs.map (fun p => p.1 ++ '=' :: '"' :: (p.2 ++ ['"']))).flatten ++ c :: rest) =
        some (.ok (attrs.foldl (fun m p => hmInsert m p.1 p.2) acc, c :: rest))) ∧
    (∀ (attrs : List (List Char × List Char)) (k : List Char),
      assocLookup (attrs.foldl (fun m p => hmInsert m p.1 p.2) []) k =
        ((attrs.filter (fun p => p.1 = k)).getLast?).map Prod.snd) ∧
    xmlParse 20 ("<a x=\"1\" x=\"2\"/>".data) =
      some (.ok (⟨"a".data, [("x".data, "2".data)], [], none⟩, [])) := by
  refine ⟨?_, ?_, rfl⟩
  · intro attrs acc c rest fuel h1 h2 h3
    exact parseAttributesLoop_encoded attrs fuel acc c rest h1 h2 h3
  · intro attrs k
    rw [hmFold_lookup_last]
    cases (attrs.filter (fun p => p.1 = k)).getLast? <;> rfl

theorem c9_duplicate_attributes_last_wins_witness :
    parseAttributesLoop 3 []
        (([("x".data, "1".data), ("x".data, "2".data)].map
            (fun p => p.1 ++ '=' :: '"' :: (p.2 ++ ['"']))).flatten ++ '>' :: []) =
      some (.ok ([("x".data, "2".data)], ['>'])) := by
  have h := (c9_duplicate_attributes_last_wins.1)
    [("x".data, "1".data), ("x".data, "2".data)] [] '>' [] 3 (by decide) (Or.inl rfl) (by decide)
  exact h.trans (by rfl)

theorem assocLookup_groupAdd_self {α : Type} (m : List (List Char × List α)) (k : List Char) (v : α) :
    assocLookup (groupAdd m k v) k = some ((assocLookup m k).getD [] ++ [v]) := by
  induction m with
  | nil => simp [groupAdd, assocLookup]
  | cons p rest ih =>
    obtain ⟨k', vs⟩ := p
    by_cases hk : k' = k
    · subst hk
      simp [groupAdd, assocLookup]
    · simp [groupAdd, hk, assocLookup, ih]

theorem assocLookup_groupAdd_ne {α : Type} (m : List (List Char × List α)) (k t : List Char) (v : α)
    (h : t ≠ k) :
    assocLookup (groupAdd m k v) t = assocLookup m t := by
  induction m with
  | nil =>
    simp only [groupAdd, assocLookup]
    rw [if_neg (fun hh => h (Eq.symm hh))]
  | cons p rest ih =>
    obtain ⟨k', vs⟩ := p
    by_cases hk : k' = k
    · subst hk
      simp only [groupAdd, if_pos rfl, assocLookup]
      rw [if_neg (fun hh => h (Eq.symm hh)), if_neg (fun hh => h (Eq.symm hh))]
    · simp only [groupAdd, if_neg hk, assocLookup]
      split
      · rfl
      · exact ih

theorem filter_groupAdd_ne {α : Type} (m : List (List Char × List α)) (k t : List Char) (v : α)
    (h : k ≠ t) :
    (groupAdd m k v).filter (fun p => p.1 = t) = m.filter (fun p => p.1 = t) := by
  induction m with
  | nil => simp [groupAdd, List.filter_cons, h]
  | cons p rest ih =>
    obtain ⟨k', vs⟩ := p
    by_cases hk : k' = k
    · subst hk
      simp only [groupAdd, if_pos rfl]
      simp [List.filter_cons, h]
    · simp only [groupAdd, if_neg hk, List.filter_cons]
      split
      · rw [ih]
      · exact ih

theorem groupAdd_canonical {α : Type} (m : List (List Char × List α)) (k : List Char) (v : α)
    (t : List Char)
    (hm : m.filter (fun p => p.1 = t) =
      (match assocLookup m t with | some vs => [(t, vs)] | none => [])) :
    (groupAdd m k v).filter (fun p => p.1 = t) =
      (match assocLookup (groupAdd m k v) t with | some vs => [(t, vs)] | none => []) := by
  by_cases hk : k = t
  · subst hk
    induction m with
    | nil => simp [groupAdd, assocLookup, List.filter_cons]
    | cons p rest ih =>
      obtain ⟨k', vs⟩ := p
      by_cases hk' : k' = k
      · subst hk'
        simp only [groupAdd, if_pos rfl] at hm ⊢
        simp only [List.filter_cons, assocLookup, if_pos rfl] at hm ⊢
        simp at hm ⊢
        exact hm
      · simp only [groupAdd, if_neg hk']
        simp only [List.filter_cons, assocLookup] at hm ⊢
        simp only [hk'] at hm ⊢
        simp only [decide_eq_true_eq, if_neg hk'] at hm ⊢
        exact ih hm
  · rw [filter_groupAdd_ne m k t v hk,
      assocLookup_groupAdd_ne m k t v (fun h => hk (Eq.symm h)), hm]

theorem groupFold_canonical {α : Type} (pairs : List (List Char × α))
    (m : List (List Char × List α)) (t : List Char)
    (hm : m.filter (fun p => p.1 = t) =
      (match assocLookup m t with | some vs => [(t, vs)] | none => [])) :
    (pairs.foldl (fun m p => groupAdd m p.1 p.2) m).filter (fun p => p.1 = t) =
      (match assocLookup (pairs.foldl (fun m p => groupAdd m p.1 p.2) m) t with
        | some vs => [(t, vs)] | none => []) := by
  induction pairs generalizing m with
  | nil => exact hm
  | cons p rest ih =>
    simp only [List.foldl_cons]
    exact ih (groupAdd m p.1 p.2) (groupAdd_canonical m p.1 p.2 t hm)

theorem groupFold_lookup {α : Type} (pairs : List (List Char × α))
    (m : List (List Char × List α)) (t : List Char) :
    assocLookup (pairs.foldl (fun m p => groupAdd m p.1 p.2) m) t =
      if (pairs.filter (fun p => p.1 = t)).isEmpty then assocLookup m t
      else some ((assocLookup m t).getD [] ++ (pairs.filter (fun p => p.1 = t)).map Prod.snd) := by
  induction pairs generalizing m with
  | nil => simp only [List.foldl_nil, List.filter_nil, List.isEmpty_nil, if_true]
  | cons p rest ih =>
    obtain ⟨k, v⟩ := p
    simp only [List.foldl_cons]
    rw [ih]
    by_cases hk : k = t
    · subst hk
      have hds : (decide (k = k)) = true := by simp
      simp only [List.filter_cons, hds, if_true]
      rw [assocLookup_groupAdd_self]
      by_cases hre : (rest.filter (fun p => p.1 = k)).isEmpty = true
      · have hnil : rest.filter (fun p => p.1 = k) = [] := by
          cases hl : rest.filter (fun p => p.1 = k) with
          | nil => rfl
          | cons a l2 =>
            rw [hl] at hre
            simp at hre
        rw [hnil]
        simp
      · simp only [Bool.not_eq_true] at hre
        simp [hre]
    · have hd : (decide (k = t)) = false := by simp [hk]
      simp only [List.filter_cons, hd, Bool.false_eq_true, if_false]
      rw [assocLookup_groupAdd_ne m k t v (fun h => hk (Eq.symm h))]

theorem assocLookup_sInsert_self {α : Type} (m : List (List Char × α)) (k : List Char) (v : α) :
    assocLookup (sInsert m k v) k = some v := by
  induction m with
  | nil => simp [sInsert, assocLookup]
  | cons p rest ih =>
    obtain ⟨k', v'⟩ := p
    simp only [sInsert]
    split
    · simp [assocLookup]
    · split
      · simp [assocLookup]
      · rename_i hlt hne
        simp only [assocLookup]
        rw [if_neg (fun h => hne (Eq.symm h))]
        exact ih

theorem assocLookup_sInsert_ne {α : Type} (m : List (List Char × α)) (k t : List Char) (v : α)
    (h : t ≠ k) :
    assocLookup (sInsert m k v) t = assocLookup m t := by
  induction m with
  | nil =>
    simp only [sInsert, assocLookup]
    rw [if_neg (fun hh => h (Eq.symm hh))]
  | cons p rest ih =>
    obtain ⟨k', v'⟩ := p
    simp only [sInsert]
    split
    · simp only [assocLookup]
      rw [if_neg (fun hh => h (Eq.symm hh))]
    · split
      · rename_i hlt heq
        subst heq
        simp only [assocLookup]
        rw [if_neg (fun hh => h (Eq.symm hh)), if_neg (fun hh => h (Eq.symm hh))]
      · simp only [assocLookup]
        split
        · rfl
        · exact ih

theorem sInsert_ne_nil {α : Type} (m : List (List Char × α)) (k : List Char) (v : α) :
    sInsert m k v ≠ [] := by
  cases m with
  | nil => simp [sInsert]
  | cons p rest =>
    obtain ⟨k', v'⟩ := p
    simp only [sInsert]
    split
    · simp
    · split <;> simp

theorem sInsertFold_lookup_last {α β : Type} (f : List β → α) (l : List (List Char × List β))
    (m : List (List Char × α)) (t : List Char) :
    assocLookup (l.foldl (fun m p => sInsert m p.1 (f p.2)) m) t =
      match (l.filter (fun p => p.1 = t)).getLast? with
      | some p => some (f p.2)
      | none => assocLookup m t := by
  induction l generalizing m with
  | nil => simp
  | cons p rest ih =>
    obtain ⟨n, v⟩ := p
    simp only [List.foldl_cons]
    rw [ih]
    by_cases hk : n = t
    · subst hk
      simp only [List.filter_cons]
      rw [if_pos (by simp)]
      rcases hfr : (rest.filter (fun p => p.1 = n)).getLast? with _ | p2
      · have hnil : rest.filter (fun p => p.1 = n) = [] := by
          cases hl : rest.filter (fun p => p.1 = n) with
          | nil => rfl
          | cons a l2 =>
            rw [hl] at hfr
            exact absurd hfr (by simp [List.getLast?_cons_cons])
        rw [hnil]
        simp only [List.getLast?_singleton]
        exact assocLookup_sInsert_self m n (f v)
      · cases hl : rest.filter (fun p => p.1 = n) with
        | nil =>
          rw [hl] at hfr
          cases hfr
        | cons a l2 =>
          rw [hl] at hfr
          rw [List.getLast?_cons_cons, hfr]
    · have hd : (decide (n = t)) = false := by simp [hk]
      simp only [List.filter_cons, hd, Bool.false_eq_true, if_false]
      cases hfr2 : (rest.filter (fun p => p.1 = t)).getLast? with
      | none => exact assocLookup_sInsert_ne m n t (f v) (fun h => hk (Eq.symm h))
      | some p2 => rfl

theorem foldl_sInsert_ne_nil {α β : Type} (f : List β → α) (l : List (List Char × List β))
    (m : List (List Char × α)) (h : m = [] → l ≠ []) :
    l.foldl (fun m p => sInsert m p.1 (f p.2)) m ≠ [] := by
  induction l generalizing m with
  | nil =>
    exact fun hc => h hc rfl
  | cons p rest ih =>
    simp only [List.foldl_cons]
    exact ih (sInsert m p.1 (f p.2)) (fun hc => absurd hc (sInsert_ne_nil m p.1 (f p.2)))

theorem toJsonPairs_filter (children : List XmlNode) (t : List Char) :
    (toJsonPairs children).filter (fun p => p.1 = t) =
      (children.filter (fun c => c.tag = t)).map (fun c => (c.tag, toJson c)) := by
  induction children with
  | nil => rfl
  | cons c rest ih =>
    simp only [toJsonPairs, List.filter_cons]
    by_cases hc : c.tag = t
    · rw [if_pos (by simpa using hc), if_pos (by simpa using hc), List.map_cons, ih]
    · rw [if_neg (by simpa using hc), if_neg (by simpa using hc), ih]

theorem mkObjFrom_lookup (attrs : List (List Char × List Char)) (text : Option (List Char))
    (pairs : List (List Char × SValue)) (t : List Char)
    (hne : pairs.filter (fun p => p.1 = t) ≠ []) :
    ∃ m, mkObjFrom attrs text pairs = .obj m ∧
      assocLookup m t = some
        (match (pairs.filter (fun p => p.1 = t)).map Prod.snd with
          | [v] => v
          | vs => .arr vs) := by
  unfold mkObjFrom
  have hlook : assocLookup (pairs.foldl (fun m p => groupAdd m p.1 p.2) []) t =
      some ((pairs.filter (fun p => p.1 = t)).map Prod.snd) := by
    rw [groupFold_lookup]
    rw [if_neg (by
      intro h
      exact hne (by
        cases hl : pairs.filter (fun p => p.1 = t) with
        | nil => rfl
        | cons a l => rw [hl] at h; simp at h))]
    simp [assocLookup]
  have hcanon : (pairs.foldl (fun m p => groupAdd m p.1 p.2) []).filter (fun p => p.1 = t) =
      [(t, (pairs.filter (fun p => p.1 = t)).map Prod.snd)] := by
    have h := groupFold_canonical pairs [] t (by rfl)
    rw [hlook] at h
    exact h
  have hcmne : pairs.foldl (fun m p => groupAdd m p.1 p.2) [] ≠ [] := by
    intro h
    rw [h] at hcanon
    simp at hcanon
  have hfinal := sInsertFold_lookup_last
    (fun vs => match vs with | [v] => v | vs => SValue.arr vs)
    (pairs.foldl (fun m p => groupAdd m p.1 p.2) [])
    (match text with
      | some t' => sInsert (if attrs.isEmpty then [] else
          sInsert [] ("@attributes".data) (attrsToSObj attrs)) ("#text".data) (.str t')
      | none => (if attrs.isEmpty then [] else
          sInsert [] ("@attributes".data) (attrsToSObj attrs))) t
  rw [hcanon] at hfinal
  simp only [List.getLast?_singleton] at hfinal
  have hmap3ne := foldl_sInsert_ne_nil
    (fun vs => match vs with | [v] => v | vs => SValue.arr vs)
    (pairs.foldl (fun m p => groupAdd m p.1 p.2) [])
    (match text with
      | some t' => sInsert (if attrs.isEmpty then [] else
          sInsert [] ("@attributes".data) (attrsToSObj attrs)) ("#text".data) (.str t')
      | none => (if attrs.isEmpty then [] else
          sInsert [] ("@attributes".data) (attrsToSObj attrs)))
    (fun _ => hcmne)
  obtain ⟨mh, mt, hm3⟩ : ∃ mh mt,
      (pairs.foldl (fun m p => groupAdd m p.1 p.2) []).foldl
        (fun m p => sInsert m p.1 (match p.2 with | [v] => v | vs => SValue.arr vs))
        (match text with
          | some t' => sInsert (if attrs.isEmpty then [] else
              sInsert [] ("@attributes".data) (attrsToSObj attrs)) ("#text".data) (.str t')
          | none => (if attrs.isEmpty then [] else
              sInsert [] ("@attributes".data) (attrsToSObj attrs))) = mh :: mt := by
    cases hm3 : (pairs.foldl (fun m p => groupAdd m p.1 p.2) []).foldl
        (fun m p => sInsert m p.1 (match p.2 with | [v] => v | vs => SValue.arr vs))
        (match text with
          | some t' => sInsert (if attrs.isEmpty then [] else
              sInsert [] ("@attributes".data) (attrsToSObj attrs)) ("#text".data) (.str t')
          | none => (if attrs.isEmpty then [] else
              sInsert [] ("@attributes".data) (attrsToSObj attrs))) with
    | nil => exact absurd hm3 hmap3ne
    | cons a l => exact ⟨a, l, rfl⟩
  refine ⟨mh :: mt, ?_, ?_⟩
  · cases text with
    | none =>
      simp only at hm3 ⊢
      rw [hm3]
      rfl
    | some t' =>
      simp only at hm3 ⊢
      rw [hm3]
      rfl
  · rw [← hm3]
    exact hfinal

/-- C4: `to_json` groups children by tag name; a group with exactly one
child is stored directly under the tag key, a larger group as an array
of the children's projections; `<a><b>1</b><b>2</b></a>` projects to
`{"b": ["1","2"]}`. -/
theorem c4_children_grouping :
    (∀ (n : XmlNode) (t : List Char),
      n.children.filter (fun c => c.tag = t) ≠ [] →
      ∃ m, toJson n = .obj m ∧
        assocLookup m t = some
          (match (n.children.filter (fun c => c.tag = t)).map toJson with
            | [v] => v
            | vs => .arr vs)) ∧
    xmlParse 30 ("<a><b>1</b><b>2</b></a>".data) =
      some (.ok (⟨"a".data, [],
        [⟨"b".data, [], [], some ("1".data)⟩, ⟨"b".data, [], [], some ("2".data)⟩], none⟩, [])) ∧
    toJson ⟨"a".data, [],
        [⟨"b".data, [], [], some ("1".data)⟩, ⟨"b".data, [], [], some ("2".data)⟩], none⟩ =
      .obj [("b".data, .arr [.str ("1".data), .str ("2".data)])] := by
  refine ⟨?_, rfl, rfl⟩
  intro n t hg
  obtain ⟨tag, attrs, children, text⟩ := n
  dsimp only at hg ⊢
  have hch : children ≠ [] := by
    intro h
    subst h
    simp at hg
  have hchE : children.isEmpty = false := by
    cases children with
    | nil => exact absurd rfl hch
    | cons a l => rfl
  have hpairs : (toJsonPairs children).filter (fun p => p.1 = t) ≠ [] := by
    rw [toJsonPairs_filter]
    intro h
    exact hg (by
      cases hl : children.filter (fun c => c.tag = t) with
      | nil => rfl
      | cons a l => rw [hl] at h; cases h)
  have hred : toJson ⟨tag, attrs, children, text⟩ = mkObjFrom attrs text (toJsonPairs children) := by
    cases text with
    | none => rfl
    | some t' =>
      show (if children.isEmpty && attrs.isEmpty then SValue.str t'
            else mkObjFrom attrs (some t') (toJsonPairs children)) = _
      rw [hchE]
      rfl
  rw [hred]
  obtain ⟨m, hm, hl⟩ := mkObjFrom_lookup attrs text (toJsonPairs children) t hpairs
  have heq : ((toJsonPairs children).filter (fun p => p.1 = t)).map Prod.snd =
      (children.filter (fun c => c.tag = t)).map toJson := by
    rw [toJsonPairs_filter, List.map_map]
    rfl
  rw [heq] at hl
  exact ⟨m, hm, hl⟩

theorem c4_children_grouping_witness :
    ∃ m, toJson ⟨"a".data, [],
        [⟨"b".data, [], [], some ("1".data)⟩, ⟨"b".data, [], [], some ("2".data)⟩], none⟩ = .obj m ∧
      assocLookup m ("b".data) = some
        (match ((⟨"a".data, [],
            [⟨"b".data, [], [], some ("1".data)⟩, ⟨"b".data, [], [], some ("2".data)⟩], none⟩ :
              XmlNode).children.filter (fun c => c.tag = "b".data)).map toJson with
          | [v] => v
          | vs => .arr vs) :=
  c4_children_grouping.1
    ⟨"a".data, [], [⟨"b".data, [], [], some ("1".data)⟩, ⟨"b".data, [], [], some ("2".data)⟩], none⟩
    ("b".data) (by intro h; cases h)

/-- A successful scan's decisions are unchanged when the input is
extended past what it consumed. -/
theorem skipWs_cons_ext {s : List Char} {c : Char} {r : List Char}
    (h : skipWs s = c :: r) (t : List Char) :
    skipWs (s ++ t) = c :: (r ++ t) := by
  induction s with
  | nil => simp [skipWs] at h
  | cons a rest ih =>
    simp only [skipWs] at h
    simp only [List.cons_append, skipWs]
    split at h
    · rename_i hw
      rw [if_pos hw]
      exact ih h
    · rename_i hw
      rw [if_neg hw]
      cases h
      rfl

theorem takeNameChars_ext {s : List Char} {n : List Char} {c : Char} {r : List Char}
    (h : takeNameChars s = (n, c :: r)) (t : List Char) :
    takeNameChars (s ++ t) = (n, c :: (r ++ t)) := by
  induction s generalizing n with
  | nil => simp [takeNameChars] at h
  | cons a rest ih =>
    by_cases ha : isNameChar a = true
    · rw [takeNameChars_cons_pos ha] at h
      rw [List.cons_append, takeNameChars_cons_pos ha]
      rcases hr : takeNameChars rest with ⟨n', r'⟩
      rw [hr] at h
      cases h
      have := @ih n' hr
      rw [this]
    · rw [takeNameChars_cons_neg ha] at h
      rw [List.cons_append, takeNameChars_cons_neg ha]
      cases h
      rfl

theorem parseTagName_ext {s : List Char} {n : List Char} {c : Char} {r : List Char}
    (h : parseTagName s = .ok (n, c :: r)) (t : List Char) :
    parseTagName (s ++ t) = .ok (n, c :: (r ++ t)) := by
  unfold parseTagName at h ⊢
  rcases hs : takeNameChars s with ⟨n', r'⟩
  rw [hs] at h
  cases n' with
  | nil => cases h
  | cons a n'' =>
    cases h
    rw [takeNameChars_ext hs t]

theorem expectChar_ext {c : Char} {s r : List Char} (h : expectChar c s = .ok r)
    (t : List Char) :
    expectChar c (s ++ t) = .ok (r ++ t) := by
  cases s with
  | nil => simp [expectChar] at h
  | cons a rest =>
    simp only [expectChar] at h
    split at h
    · cases h
      rename_i ha
      simp only [List.cons_append, expectChar, if_pos ha]
    · cases h

theorem parseAttrValue_ext {s v r : List Char} (h : parseAttrValue s = .ok (v, r))
    (t : List Char) :
    parseAttrValue (s ++ t) = .ok (v, r ++ t) := by
  induction s generalizing v with
  | nil => simp [parseAttrValue] at h
  | cons a rest ih =>
    simp only [parseAttrValue] at h
    simp only [List.cons_append, parseAttrValue, List.append_eq]
    split at h
    · rename_i ha
      cases h
      rw [if_pos ha]
    · rename_i ha
      rw [if_neg ha]
      match hv : parseAttrValue rest with
      | .error e => rw [hv] at h; cases h
      | .ok (v', r') =>
        rw [hv] at h
        cases h
        rw [ih hv]

theorem parseText_ext {s txt : List Char} {c : Char} {r : List Char}
    (h : parseText s = (txt, c :: r)) (t : List Char) :
    parseText (s ++ t) = (txt, c :: (r ++ t)) := by
  induction s generalizing txt with
  | nil => simp [parseText] at h
  | cons a rest ih =>
    simp only [parseText] at h
    simp only [List.cons_append, parseText, List.append_eq]
    split at h
    · rename_i ha
      cases h
      rw [if_pos ha]
    · rename_i ha
      rw [if_neg ha]
      rcases hr : parseText rest with ⟨txt', r'⟩
      rw [hr] at h
      cases h
      rw [ih hr]

theorem parseText_rest_shape (s : List Char) :
    (parseText s).2 = [] ∨ ∃ r, (parseText s).2 = '<' :: r := by
  induction s with
  | nil => left; rfl
  | cons a rest ih =>
    by_cases ha : a = '<'
    · subst ha
      right
      exact ⟨rest, by simp [parseText]⟩
    · simp only [parseText, if_neg ha]
      exact ih

theorem parseAttributesLoop_nil_not_ok (fuel : Nat) (acc : List (List Char × List Char))
    {x : List (List Char × List Char) × List Char} :
    parseAttributesLoop fuel acc [] ≠ some (.ok x) := by
  cases fuel with
  | zero => intro h; cases h
  | succ f => intro h; cases h

theorem parseAttributesLoop_ok_shape :
    ∀ (fuel : Nat) (acc m : List (List Char × List Char)) (s r : List Char),
      parseAttributesLoop fuel acc s = some (.ok (m, r)) →
      r.head? = some '>' ∨ r.head? = some '/' := by
  intro fuel
  induction fuel with
  | zero => intro acc m s r h; cases h
  | succ f ih =>
    intro acc m s r h
    simp only [parseAttributesLoop] at h
    split at h
    · rename_i hc
      cases h
      exact hc
    · split at h
      · cases h
      · split at h
        · cases h
        · split at h
          · cases h
          · split at h
            · cases h
            · exact ih _ _ _ _ h

theorem parseAttributesLoop_ext :
    ∀ (fuel : Nat) (acc m : List (List Char × List Char)) (s r : List Char),
      parseAttributesLoop fuel acc s = some (.ok (m, r)) →
      ∀ t, parseAttributesLoop fuel acc (s ++ t) = some (.ok (m, r ++ t)) := by
  intro fuel
  induction fuel with
  | zero => intro acc m s r h; cases h
  | succ f ih =>
    intro acc m s r h t
    simp only [parseAttributesLoop] at h ⊢
    rcases hs1 : skipWs s with _ | ⟨c1, r1⟩
    · rw [hs1] at h
      simp only [List.head?_nil] at h
      rw [if_neg (by simp)] at h
      simp only [parseTagName, takeNameChars] at h
      cases h
    · rw [hs1] at h
      rw [skipWs_cons_ext hs1 t]
      by_cases hstop : (c1 :: r1).head? = some '>' ∨ (c1 :: r1).head? = some '/'
      · rw [if_pos hstop] at h
        cases h
        rw [if_pos (by simpa using hstop)]
        rfl
      · rw [if_neg hstop] at h
        rw [if_neg (by simpa using hstop)]
        match htag : parseTagName (c1 :: r1) with
        | .error e => rw [htag] at h; cases h
        | .ok (name, s2) =>
          rw [htag] at h
          dsimp only at h
          rcases hs2 : s2 with _ | ⟨c2, r2⟩
          · rw [hs2] at h
            simp [skipWs, expectChar] at h
          · rw [hs2] at htag h
            have htag2 : parseTagName (c1 :: (r1 ++ t)) = .ok (name, c2 :: (r2 ++ t)) := by
              simpa using parseTagName_ext htag t
            rw [htag2]
            dsimp only
            rcases hsw2 : skipWs (c2 :: r2) with _ | ⟨c3, r3⟩
            · rw [hsw2] at h
              simp [expectChar] at h
            · rw [hsw2] at h
              have hsw2b : skipWs (c2 :: (r2 ++ t)) = c3 :: (r3 ++ t) := by
                simpa using skipWs_cons_ext hsw2 t
              rw [hsw2b]
              match hexp : expectChar '=' (c3 :: r3) with
              | .error e => rw [hexp] at h; cases h
              | .ok s4 =>
                rw [hexp] at h
                dsimp only at h
                have hexp2 : expectChar '=' (c3 :: (r3 ++ t)) = .ok (s4 ++ t) := by
                  simpa using expectChar_ext hexp t
                rw [hexp2]
                dsimp only
                rcases hsw4 : skipWs s4 with _ | ⟨c5, r5⟩
                · rw [hsw4] at h
                  simp [expectChar] at h
                · rw [hsw4] at h
                  rw [skipWs_cons_ext hsw4 t]
                  match hq : expectChar '"' (c5 :: r5) with
                  | .error e => rw [hq] at h; cases h
                  | .ok s6 =>
                    rw [hq] at h
                    dsimp only at h
                    have hq2 : expectChar '"' (c5 :: (r5 ++ t)) = .ok (s6 ++ t) := by
                      simpa using expectChar_ext hq t
                    rw [hq2]
                    dsimp only
                    match hav : parseAttrValue s6 with
                    | .error e => rw [hav] at h; cases h
                    | .ok (v, s7) =>
                      rw [hav] at h
                      dsimp only at h
                      rw [parseAttrValue_ext hav t]
                      dsimp only
                      exact ih _ _ _ _ h t

theorem xml_ext_aux :
    ∀ fuel : Nat,
      (∀ s n r, xmlParse fuel s = some (.ok (n, r)) →
        ∀ t, xmlParse fuel (s ++ t) = some (.ok (n, r ++ t))) ∧
      (∀ node s n r, xmlContent fuel node s = some (.ok (n, r)) →
        ∀ t, xmlContent fuel node (s ++ t) = some (.ok (n, r ++ t))) := by
  intro fuel
  induction fuel with
  | zero =>
    constructor
    · intro s n r h
      cases h
    · intro node s n r h
      cases h
  | succ f ih =>
    obtain ⟨ihP, ihC⟩ := ih
    constructor
    · intro s n r h t
      simp only [xmlParse] at h ⊢
      rcases hs1 : skipWs s with _ | ⟨c1, r1⟩
      · rw [hs1] at h
        simp [expectChar] at h
      · rw [hs1] at h
        rw [skipWs_cons_ext hs1 t]
        match hexp : expectChar '<' (c1 :: r1) with
        | .error e => rw [hexp] at h; cases h
        | .ok s2 =>
          rw [hexp] at h
          dsimp only at h
          have hexpb : expectChar '<' (c1 :: (r1 ++ t)) = .ok (s2 ++ t) := by
            simpa using expectChar_ext hexp t
          rw [hexpb]
          dsimp only
          match htag : parseTagName s2 with
          | .error e => rw [htag] at h; cases h
          | .ok (tag, s3) =>
            rw [htag] at h
            dsimp only at h
            rcases hs3 : s3 with _ | ⟨c3, r3⟩
            · rw [hs3] at h
              match hal : parseAttributesLoop f [] [] with
              | none => rw [hal] at h; cases h
              | some (.error e) => rw [hal] at h; simp at h
              | some (.ok x) => exact absurd hal (parseAttributesLoop_nil_not_ok f [])
            · rw [hs3] at htag h
              have htagb : parseTagName (s2 ++ t) = .ok (tag, c3 :: (r3 ++ t)) :=
                parseTagName_ext htag t
              rw [htagb]
              dsimp only
              match hal : parseAttributesLoop f [] (c3 :: r3) with
              | none => rw [hal] at h; cases h
              | some (.error e) => rw [hal] at h; simp at h
              | some (.ok (attrs, s4)) =>
                rw [hal] at h
                dsimp only at h
                have hshape := parseAttributesLoop_ok_shape f [] attrs (c3 :: r3) s4 hal
                rcases hs4 : s4 with _ | ⟨c4, r4⟩
                · rw [hs4] at hshape
                  simp at hshape
                · rw [hs4] at hal h
                  have halb : parseAttributesLoop f [] (c3 :: (r3 ++ t)) =
                      some (.ok (attrs, c4 :: (r4 ++ t))) := by
                    simpa using parseAttributesLoop_ext f [] attrs (c3 :: r3) (c4 :: r4) hal t
                  rw [halb]
                  dsimp only
                  have hc4w : isRustWhitespace c4 = false := by
                    rw [hs4] at hshape
                    rcases hshape with h4 | h4 <;>
                      (simp only [List.head?_cons, Option.some.injEq] at h4; subst h4; decide)
                  rw [skipWs_cons_of_not_ws hc4w] at h
                  rw [skipWs_cons_of_not_ws hc4w]
                  by_cases hsl : (c4 :: r4).head? = some '/'
                  · rw [if_pos hsl] at h
                    rw [if_pos (show (c4 :: (r4 ++ t)).head? = some '/' by simpa using hsl)]
                    simp only [List.tail_cons] at h ⊢
                    match hex2 : expectChar '>' r4 with
                    | .error e => rw [hex2] at h; cases h
                    | .ok s6 =>
                      rw [hex2] at h
                      dsimp only at h
                      cases h
                      rw [expectChar_ext hex2 t]
                  · rw [if_neg hsl] at h
                    rw [if_neg (show ¬(c4 :: (r4 ++ t)).head? = some '/' by simpa using hsl)]
                    match hex2 : expectChar '>' (c4 :: r4) with
                    | .error e => rw [hex2] at h; cases h
                    | .ok s6 =>
                      rw [hex2] at h
                      dsimp only at h
                      have hex2b : expectChar '>' (c4 :: (r4 ++ t)) = .ok (s6 ++ t) := by
                        simpa using expectChar_ext hex2 t
                      rw [hex2b]
                      dsimp only
                      exact ihC _ _ _ _ h t
    · intro node s n r h t
      simp only [xmlContent] at h ⊢
      split at h
      · -- close-tag branch
        rename_i x s2 heq
        have heqb : skipWs (s ++ t) = '<' :: '/' :: (s2 ++ t) := by
          simpa using skipWs_cons_ext heq t
        match htag : parseTagName s2 with
        | .error e => rw [htag] at h; cases h
        | .ok (ct, s3) =>
          rw [htag] at h
          dsimp only at h
          by_cases hct : ct ≠ node.tag
          · rw [if_pos hct] at h
            simp at h
          · rw [if_neg hct] at h
            match hex : expectChar '>' s3 with
            | .error e => rw [hex] at h; cases h
            | .ok s4 =>
              rw [hex] at h
              dsimp only at h
              cases h
              rcases hs3 : s3 with _ | ⟨c3, r3⟩
              · rw [hs3] at hex
                simp [expectChar] at hex
              · rw [hs3] at htag hex
                have htagb : parseTagName (s2 ++ t) = .ok (ct, c3 :: (r3 ++ t)) :=
                  parseTagName_ext htag t
                have hexb : expectChar '>' (c3 :: (r3 ++ t)) = .ok (r ++ t) := by
                  simpa using expectChar_ext hex t
                split
                · rename_i x2 s2b heq2
                  rw [heqb] at heq2
                  injection heq2 with h1 h2
                  injection h2 with h3 h4
                  subst h4
                  rw [htagb]
                  dsimp only
                  rw [if_neg hct, hexb]
                · rename_i x2 s2b hneg heq2
                  rw [heqb] at heq2
                  injection heq2 with h1 h2
                  exact (hneg _ h2.symm).elim
                · rename_i x2 hneg1 hneg2
                  exact absurd heqb (hneg1 _)
      · -- child branch
        rename_i x s2 hno heq
        rcases hs2 : s2 with _ | ⟨c2, r2⟩
        · rw [hs2] at h
          exfalso
          cases f with
          | zero => cases h
          | succ f2 =>
            rw [show xmlParse (f2 + 1) ['<'] = some (.error "Expected tag name") from rfl] at h
            simp at h
        · rw [hs2] at hno heq h
          have hc2 : ¬ c2 = '/' := by
            intro hc
            subst hc
            exact hno r2 rfl
          have heqb : skipWs (s ++ t) = '<' :: c2 :: (r2 ++ t) := by
            simpa using skipWs_cons_ext heq t
          match hx : xmlParse f ('<' :: c2 :: r2) with
          | none => rw [hx] at h; cases h
          | some (.error e) => rw [hx] at h; simp at h
          | some (.ok (child, s3)) =>
            rw [hx] at h
            dsimp only at h
            have hxb : xmlParse f ('<' :: c2 :: (r2 ++ t)) = some (.ok (child, s3 ++ t)) := by
              simpa using ihP ('<' :: c2 :: r2) child s3 hx t
            split
            · rename_i x2 s2b heq2
              rw [heqb] at heq2
              injection heq2 with h1 h2
              injection h2 with h3 h4
              exact absurd h3 hc2
            · rename_i x2 s2b hneg heq2
              rw [heqb] at heq2
              injection heq2 with h1 h2
              subst h2
              rw [hxb]
              dsimp only
              exact ihC _ _ _ _ h t
            · rename_i x2 hneg1 hneg2
              exact absurd heqb (hneg2 _)
      · -- text branch
        rename_i s1 hne1 hne2
        rcases hs1 : skipWs s with _ | ⟨c, r1⟩
        · rw [hs1] at h
          simp only [parseText, List.all_nil, if_true] at h
          rw [xmlContent_nil_none] at h
          cases h
        · rw [hs1] at h
          have hcws : isRustWhitespace c = false := skipWs_head_not_ws hs1
          have hclt : ¬ c = '<' := fun hc => hne2 r1 (by rw [hs1, hc])
          have heqb : skipWs (s ++ t) = c :: (r1 ++ t) := by
            simpa using skipWs_cons_ext hs1 t
          rw [show parseText (c :: r1) = (c :: (parseText r1).1, (parseText r1).2) from by
            simp [parseText, hclt]] at h
          dsimp only at h
          rcases hsh : (parseText r1).2 with _ | ⟨cp, rp⟩
          · rw [hsh] at h
            rw [xmlContent_nil_none] at h
            cases h
          · have hcp : cp = '<' := by
              rcases parseText_rest_shape r1 with hz | ⟨rz, hz⟩
              · rw [hz] at hsh; cases hsh
              · rw [hz] at hsh
                injection hsh with ha hb
                exact ha.symm
            subst hcp
            rw [hsh] at h
            have hptb : parseText (r1 ++ t) = ((parseText r1).1, '<' :: (rp ++ t)) :=
              parseText_ext (show parseText r1 = ((parseText r1).1, '<' :: rp) from by
                rw [← hsh]) t
            split
            · rename_i x2 s2b heq2
              rw [heqb] at heq2
              injection heq2 with h1 h2
              exact absurd h1 hclt
            · rename_i x2 s2b hneg heq2
              rw [heqb] at heq2
              injection heq2 with h1 h2
              exact absurd h1 hclt
            · rename_i x2 hneg1 hneg2
              rw [heqb]
              rw [show parseText (c :: (r1 ++ t)) =
                  (c :: (parseText (r1 ++ t)).1, (parseText (r1 ++ t)).2) from by
                simp [parseText, hclt]]
              dsimp only
              rw [show (parseText (r1 ++ t)).1 = (parseText r1).1 from by rw [hptb],
                show (parseText (r1 ++ t)).2 = '<' :: (rp ++ t) from by rw [hptb]]
              exact ihC _ _ _ _ h t

/-- C8: `XmlParser::parse` performs no end-of-input check: appending any
characters to an input that parses leaves the returned element
unchanged (the extra characters land in the ignored rest of the
cursor), while `JsonParser::parse` rejects trailing non-whitespace with
`"Unexpected characters after JSON value"`. -/
theorem c8_trailing_content_ignored :
    (∀ (fuel : Nat) (s t : List Char) (n : XmlNode) (r : List Char),
      xmlParse fuel s = some (.ok (n, r)) →
      xmlParse fuel (s ++ t) = some (.ok (n, r ++ t)) ∧
      xmlParseTop fuel (s ++ t) = some (.ok n)) ∧
    (∀ (fuel : Nat) (s : List Char) (v : JsonValue) (r : List Char),
      parseValue fuel s = some (.ok (v, r)) → skipWs r ≠ [] →
      jsonParse fuel s = some (.error "Unexpected characters after JSON value")) := by
  constructor
  · intro fuel s t n r h
    have hext := (xml_ext_aux fuel).1 s n r h t
    refine ⟨hext, ?_⟩
    unfold xmlParseTop
    rw [hext]
  · intro fuel s v r h hr
    unfold jsonParse
    rw [h]
    dsimp only
    cases hsw : skipWs r with
    | nil => exact absurd hsw hr
    | cons a l => rfl

theorem c8_trailing_content_ignored_witness :
    xmlParseTop 20 ("<a/>junk".data) = some (.ok ⟨"a".data, [], [], none⟩) ∧
    jsonParse 20 ("1 x".data) = some (.error "Unexpected characters after JSON value") := by
  constructor
  · exact (c8_trailing_content_ignored.1 20 ("<a/>".data) ("junk".data)
      ⟨"a".data, [], [], none⟩ [] rfl).2
  · exact c8_trailing_content_ignored.2 20 ("1 x".data) (.number ['1'])
      (' ' :: 'x' :: []) rfl (by decide)
